import Mathlib

/-!
Shallow embedding of the generic queue engine of the repository
(package `queue`: queue.go, insertFunctions (src/unnamed/part_002),
removeFunctions.go, peekFunctions.go, shrinking.go, element types in
src/unnamed/part_000, errors in src/unnamed/part_001, and the functional
layer in src/unnamed/part_002).

Modelling conventions:
* Go `float64` priorities are modelled as `ℚ`.  Priorities are only ever
  compared (`<`, `>`, `==`), never combined arithmetically, so for every
  non-NaN input the rational model agrees exactly with the float one.
* A Go `Element[T]` interface value is `GoElem T`; the `nilElem`
  constructor models a nil interface value (e.g. the slots produced by
  `make([]Element[T], n)` in `MapUnsecure`).  Calling a method on a nil
  interface value is a runtime panic; panicking computations are
  modelled by returning `none`.
* Go slices are modelled as `List`s.  The capacity of the backing array
  is tracked in the field `queueCap`; Go's `append` over-allocation
  factor is implementation defined, so growth is modelled minimally
  (capacity becomes the new length when it must grow).  No claim
  depends on the exact capacity value, only on the fact that a shrink
  reallocation copies all live elements (which `handleShrink` below
  does, exactly as the source's `copy(temp, q.queueSlice[:lenQ])`).
* The `sync.Mutex` is relevant to sequential behaviour in exactly one
  place: `UpdatePriority` holds the queue lock and (for the priority
  orders) calls the public, locking `Insert` on the same queue, which
  self-deadlocks (Go mutexes are not re-entrant).  This is modelled by
  the dedicated result constructor `UPRes.deadlock`.
* `errors.Wrap`/`errors.Wrapf` preserve the wrapped cause (callers test
  errors with `errors.Is`), so wrapping is modelled as the identity on
  the error value.
-/

/-- Error taxonomy of src/unnamed/part_001 (errors.go). -/
inductive GoErr where
  | emptyQueue
  | indexOutOfBounds
  | invalidQueueType
  | invalidQueueLimit
deriving DecidableEq, Repr

/-- A Go `Element[T]` interface value: a `BaseElement` (priority fixed at 0,
`SetPriority` is a no-op), a `PriorityElement` carrying a mutable priority,
or a nil interface value. From src/unnamed/part_000. -/
inductive GoElem (T : Type) where
  | base (content : T)
  | prio (content : T) (priority : ℚ)
  | nilElem
deriving DecidableEq, Repr

namespace GoElem

/-- Method `Priority()`; `none` models the panic of calling it on a nil
interface value. `BaseElement.Priority()` returns 0. -/
def priorityM : GoElem T → Option ℚ
  | base _ => some 0
  | prio _ p => some p
  | nilElem => none

/-- Method `Content()`; `none` models the nil-interface panic. -/
def contentM : GoElem T → Option T
  | base c => some c
  | prio c _ => some c
  | nilElem => none

/-- Method `SetPriority(p)`: a no-op on `BaseElement`, updates a
`PriorityElement`, panics (`none`) on nil. -/
def setPriorityM (p : ℚ) : GoElem T → Option (GoElem T)
  | base c => some (base c)
  | prio c _ => some (prio c p)
  | nilElem => none

end GoElem

/-- The queue structure of src/queue/queue.go.  `order` is the Go `Queuetype`
(an `int`); `queueSlice` is the live view of the backing slice; `queueCap` is
the backing array capacity (see the modelling notes above); `numElements` is
the live count (a Go `int` that the code never drives negative, so `ℕ`);
`maxnumElements` is the capacity limit. -/
structure Queue (T : Type) where
  order : ℤ
  queueSlice : List (GoElem T)
  queueCap : ℕ
  numElements : ℕ
  maxnumElements : ℤ
deriving DecidableEq, Repr

/-- The `Queuetype` constant `Fifo` (iota = 0). -/
def Fifo : ℤ := 0

/-- The `Queuetype` constant `Lifo`. -/
def Lifo : ℤ := 1

/-- The `Queuetype` constant `PriorityHigh`. -/
def PriorityHigh : ℤ := 2

/-- The `Queuetype` constant `PriorityLow`. -/
def PriorityLow : ℤ := 3

/-- The `Queuetype` constant `FifoLimited`. -/
def FifoLimited : ℤ := 4

/-- The unexported constant `numQueuetypes = 5`. -/
def numQueuetypes : ℤ := 5

namespace Queue

/-- Capacity bookkeeping for a reassignment of `q.queueSlice`: Go's `append`
grows the backing array only when the new length exceeds the capacity; the
exact over-allocation is implementation defined and modelled minimally. -/
def capAfter (cap n : ℕ) : ℕ := if n ≤ cap then cap else n

/-- Reassign the queue's slice, updating the modelled capacity. -/
def withSlice (q : Queue T) (l : List (GoElem T)) : Queue T :=
  { q with queueSlice := l, queueCap := capAfter q.queueCap l.length }

/-- NewQueue (src/queue/queue.go:64-73).  Note the guard is
`tp < 0 || tp > numQueuetypes` — a strict `>` against the element count. -/
def NewQueue (tp : ℤ) : Except GoErr (Queue T) :=
  if tp < 0 ∨ tp > numQueuetypes then .error .invalidQueueType
  else .ok ⟨tp, [], 0, 0, 0⟩

/-- SetLimit (src/queue/queue.go:98-104): rejects a negative limit, otherwise
stores it.  Returns the Go `(error)` result together with the updated state. -/
def SetLimit (q : Queue T) (limit : ℤ) : Option GoErr × Queue T :=
  if limit < 0 then (some .invalidQueueLimit, q)
  else (none, { q with maxnumElements := limit })

/-- insertFifo (src/unnamed/part_002:5-7): prepend. -/
def insertFifo (q : Queue T) (elem : GoElem T) : Queue T :=
  q.withSlice (elem :: q.queueSlice)

/-- insertLifo (src/unnamed/part_002:9-11): append. -/
def insertLifo (q : Queue T) (elem : GoElem T) : Queue T :=
  q.withSlice (q.queueSlice ++ [elem])

/-- The loop of backtrackInsertionPoint (src/unnamed/part_002:74-83), running
`for i := q.numElements - 1; i > -1; i--`.  The fuel argument is `i + 1`
(fuel 0 is loop exit, i.e. `i = -1`, which prepends).  On a non-tied element
at index `i` the source splices
`append(q.queueSlice[i:], append([]Element[T]{elem}, q.queueSlice[:i]...)...)`,
i.e. `drop i ++ elem :: take i`.  `pp` is `elem.Priority()` (already
evaluated without panic by the caller's tie test); reading a nil slot's
priority panics (`none`). -/
def backtrackAux (qs : List (GoElem T)) (elem : GoElem T) (pp : ℚ) :
    ℕ → Option (List (GoElem T))
  | 0 => some (elem :: qs)
  | i + 1 =>
    match qs.get? i with
    | none => none
    | some e =>
      match e.priorityM with
      | none => none
      | some pi => if pi = pp then backtrackAux qs elem pp i
                   else some (qs.drop i ++ elem :: qs.take i)

/-- The default scan loop shared textually by insertPriorityHigh
(src/unnamed/part_002:28-38) and insertPriorityLow (56-66):
`for i, e := range qs` continues while `cont (e.Priority()) (elem.Priority())`
holds, and on the first break splices
`append(qs[:(i-1)], append([]Element[T]{elem}, qs[(i-1):]...)...)`,
i.e. `take (i-1) ++ elem :: drop (i-1)` — which for `i = 0` evaluates
`qs[:(0-1)]`, a negative slice bound, a runtime panic (`none`).
If the loop finishes without breaking the slice is left unchanged.
The range loop is encoded structurally: the second list argument is the
remaining suffix `qs.drop i`, whose head is the current iteration's `e`. -/
def spliceScan (qs : List (GoElem T)) (elem : GoElem T)
    (cont : ℚ → ℚ → Bool) (pp : ℚ) :
    ℕ → List (GoElem T) → Option (List (GoElem T))
  | _, [] => some qs
  | i, e :: rest =>
    match e.priorityM with
    | none => none
    | some pe =>
      if cont pe pp then spliceScan qs elem cont pp (i + 1) rest
      else if i = 0 then none
      else some (qs.take (i - 1) ++ elem :: qs.drop (i - 1))

/-- insertPriorityHigh (src/unnamed/part_002:13-39).  Fast-path append when
empty or strictly higher priority than the tail; on a tie it calls
backtrackInsertionPoint but — with no `return` after the call — falls
through to the default scan as well. -/
def insertPriorityHigh (q : Queue T) (elem : GoElem T) : Option (Queue T) :=
  if q.numElements = 0 then some (q.withSlice (q.queueSlice ++ [elem]))
  else
    match q.queueSlice.get? (q.numElements - 1) with
    | none => none
    | some tail =>
      match tail.priorityM, elem.priorityM with
      | some tp, some pp =>
        if tp < pp then some (q.withSlice (q.queueSlice ++ [elem]))
        else
          match (if tp = pp then backtrackAux q.queueSlice elem pp q.numElements
                 else some q.queueSlice) with
          | none => none
          | some qs1 =>
            (spliceScan qs1 elem (fun pe pp => pe < pp) pp 0 qs1).map q.withSlice
      | _, _ => none

/-- insertPriorityLow (src/unnamed/part_002:41-67), the mirror image:
fast-path append on strictly lower priority, continue the scan while
`e.Priority() > elem.Priority()`. -/
def insertPriorityLow (q : Queue T) (elem : GoElem T) : Option (Queue T) :=
  if q.numElements = 0 then some (q.withSlice (q.queueSlice ++ [elem]))
  else
    match q.queueSlice.get? (q.numElements - 1) with
    | none => none
    | some tail =>
      match tail.priorityM, elem.priorityM with
      | some tp, some pp =>
        if tp > pp then some (q.withSlice (q.queueSlice ++ [elem]))
        else
          match (if tp = pp then backtrackAux q.queueSlice elem pp q.numElements
                 else some q.queueSlice) with
          | none => none
          | some qs1 =>
            (spliceScan qs1 elem (fun pe pp => pe > pp) pp 0 qs1).map q.withSlice
      | _, _ => none

/-- shrinkFactor (src/queue/shrinking.go:5-18), banded by `numElements`
(the rationals 0.75, 0.9, 0.99, 0.999, 0.9999). -/
def shrinkFactor (q : Queue T) : ℚ :=
  if q.numElements < 1000 then mkRat 3 4
  else if q.numElements < 10000 then mkRat 9 10
  else if q.numElements < 100000 then mkRat 99 100
  else if q.numElements < 1000000 then mkRat 999 1000
  else mkRat 9999 10000

/-- afterShrinkFactor (src/queue/shrinking.go:22-35): the rationals 0.8,
0.95, 0.995, 0.9995, 0.99995, over the same bands. -/
def afterShrinkFactor (q : Queue T) : ℚ :=
  if q.numElements < 1000 then mkRat 4 5
  else if q.numElements < 10000 then mkRat 19 20
  else if q.numElements < 100000 then mkRat 199 200
  else if q.numElements < 1000000 then mkRat 1999 2000
  else mkRat 19999 20000

/-- The exact product of a rational factor and a natural-number capacity,
written out on numerator and denominator (so that it evaluates by kernel
reduction; it equals f * c since the denominator of a rational is positive). -/
def ratMulNat (f : ℚ) (c : ℕ) : ℚ := mkRat (f.num * c) f.den

/-- handleShrink (src/queue/removeFunctions.go:15-23): when the live length
drops below `shrinkFactor * cap`, reallocate to `ceil(afterShrinkFactor*cap)`
and copy all `lenQ` live elements over (`copy(temp, q.queueSlice[:lenQ])`
with `lenQ = len(q.queueSlice)` copies the whole slice, so the contents are
preserved verbatim; only the capacity changes).  In every band
`afterShrinkFactor > shrinkFactor`, so the new capacity exceeds the live
length and the `make` never panics. -/
def handleShrink (q : Queue T) : Queue T :=
  let lenQ := q.queueSlice.length
  if (lenQ : ℚ) < ratMulNat (shrinkFactor q) q.queueCap then
    { q with queueCap := (Rat.ceil (ratMulNat (afterShrinkFactor q) q.queueCap)).toNat }
  else q

/-- deleteWithoutMemoryManagement (src/queue/removeFunctions.go:25-48).
Checks emptiness (via `lenQ := q.numElements`) before bounds; reads the
element at `i`; then removes it: for `i == 0` the head is nilled and the
slice view advanced, otherwise later elements are shifted down by one
(`copy(q.queueSlice[i:], q.queueSlice[i+1:])`, which leaves the final slot of
the view untouched), the slot `lenQ-1` is nilled and the view truncated to
`lenQ-1`.  Result: `(element-or-nil, error-or-nil, state)`; the outer
`Option` is `none` when reading `q.queueSlice[i]` indexes past the view
(only possible when `numElements` exceeds the slice length). -/
def deleteWithoutMemoryManagement (q : Queue T) (i : ℤ) :
    Option (Option (GoElem T) × Option GoErr × Queue T) :=
  let lenQ : ℤ := q.numElements
  if lenQ = 0 then some (none, some .emptyQueue, q)
  else if i < 0 ∨ i ≥ lenQ then some (none, some .indexOutOfBounds, q)
  else
    match q.queueSlice.get? i.toNat with
    | none => none
    | some elem =>
      let q' :=
        if i = lenQ then q.withSlice (q.queueSlice.take i.toNat)
        else if i = 0 then
          q.withSlice (((q.queueSlice.set 0 .nilElem).drop 1))
        else
          -- copy(qs[i:], qs[i+1:]) : take i ++ drop (i+1) ++ untouched last slot
          let shifted := q.queueSlice.take i.toNat ++ q.queueSlice.drop (i.toNat + 1)
            ++ q.queueSlice.drop (q.queueSlice.length - 1)
          q.withSlice ((shifted.set (q.numElements - 1) .nilElem).take (q.numElements - 1))
      some (some elem, none, { q' with numElements := q'.numElements - 1 })

/-- remove (src/queue/removeFunctions.go:9-13): delete at `i`, then run
handleShrink unconditionally (also on the error path), wrapping the error
(`errors.Wrap`, identity on the cause; `errors.Wrap(nil, ...)` is nil). -/
def remove (q : Queue T) (i : ℤ) :
    Option (Option (GoElem T) × Option GoErr × Queue T) :=
  (q.deleteWithoutMemoryManagement i).map fun r =>
    (r.1, r.2.1, r.2.2.handleShrink)

/-- insertFifoLimited (src/unnamed/part_002:85-94): when the queue is at its
(nonzero) limit, pop the tail (the oldest element under the Fifo layout)
first, propagating a wrapped eviction error; then a plain Fifo insert. -/
def insertFifoLimited (q : Queue T) (elem : GoElem T) :
    Option (Option GoErr × Queue T) :=
  if (q.numElements : ℤ) = q.maxnumElements ∧ q.maxnumElements ≠ 0 then
    match q.remove ((q.numElements : ℤ) - 1) with
    | none => none
    | some (_, some e, q') => some (some e, q')
    | some (_, none, q') => some (none, q'.insertFifo elem)
  else some (none, q.insertFifo elem)

/-- Insert (src/queue/queue.go:121-141): dispatch on `order`.  Note the
`FifoLimited` arm returns `q.insertFifoLimited(elem)` directly, skipping the
`q.numElements++` that the other arms reach after the switch.  An
unrecognized order yields ErrInvalidQueueType.  `none` models a runtime
panic inside a priority insert. -/
def insert (q : Queue T) (elem : GoElem T) :
    Option (Option GoErr × Queue T) :=
  let bump : Queue T → Queue T := fun q => { q with numElements := q.numElements + 1 }
  if q.order = Fifo then some (none, bump (q.insertFifo elem))
  else if q.order = Lifo then some (none, bump (q.insertLifo elem))
  else if q.order = PriorityHigh then
    (q.insertPriorityHigh elem).map fun q' => (none, bump q')
  else if q.order = PriorityLow then
    (q.insertPriorityLow elem).map fun q' => (none, bump q')
  else if q.order = FifoLimited then q.insertFifoLimited elem
  else some (some .invalidQueueType, q)

/-- Remove (src/queue/queue.go:148-157): pop at `numElements - 1`; on error
return the zero content value and priority 0 with the error; otherwise
decompose the element (a panic — `none` — if the popped slot held a nil
interface value).  The state after the call is returned alongside. -/
def Remove [Inhabited T] (q : Queue T) :
    Option (T × ℚ × Option GoErr × Queue T) :=
  match q.remove ((q.numElements : ℤ) - 1) with
  | none => none
  | some (_, some e, q') => some (default, 0, some e, q')
  | some (elem, none, q') =>
    match elem with
    | none => none
    | some el =>
      match el.contentM, el.priorityM with
      | some c, some p => some (c, p, none, q')
      | _, _ => none

/-- PeekElemAtIndex (src/queue/peekFunctions.go:19-34): emptiness first, then
`realIndex := (numElements-1) - index`, rejected only when negative; the
subsequent buffer read panics (`none`) when `realIndex` is past the view.
Returns `(priority, content, error)`; no state is returned because the
function never mutates the queue. -/
def PeekElemAtIndex [Inhabited T] (q : Queue T) (index : ℤ) :
    Option (ℚ × T × Option GoErr) :=
  if q.numElements = 0 then some (0, default, some .emptyQueue)
  else
    let realIndex : ℤ := ((q.numElements : ℤ) - 1) - index
    if realIndex < 0 then some (0, default, some .indexOutOfBounds)
    else
      match q.queueSlice.get? realIndex.toNat with
      | none => none
      | some elem =>
        match elem.priorityM, elem.contentM with
        | some p, some c => some (p, c, none)
        | _, _ => none

/-- GetAllElements (src/queue/queue.go:236-242): `ret := make([]T,
q.numElements)` creates `numElements` zero values (modelled by `default`)
and the loop then `append`s every element's content after them; reading the
content of a nil slot panics (`none`). -/
def GetAllElements [Inhabited T] (q : Queue T) : Option (List T) :=
  go (List.replicate q.numElements default) q.queueSlice
where
  go (ret : List T) : List (GoElem T) → Option (List T)
  | [] => some ret
  | e :: rest =>
    match e.contentM with
    | none => none
    | some c => go (ret ++ [c]) rest

end Queue

/-- FoldUnsecure (src/unnamed/part_002:196-210).  The loop body declares
`aggregate, err := f(aggregate, elem)` with `:=`, so the inner `aggregate`
shadows the function-level one: every iteration applies `f` to the original
`initial`, an error returns the failing step's result (wrapped, identity),
and after a full pass the function returns the outer, never-reassigned
aggregate — that is, `initial`. -/
def FoldUnsecure (q : Queue T) (initial : A) (f : A → GoElem T → A × Option E) :
    A × Option E :=
  go q.queueSlice
where
  go : List (GoElem T) → A × Option E
  | [] => (initial, none)
  | e :: rest =>
    match f initial e with
    | (a, some err) => (a, some err)
    | (_, none) => go rest

/-- Fold (src/unnamed/part_002:183-192): takes the queue lock and delegates
to FoldUnsecure; nothing inside re-acquires the lock, so the lock is
behaviourally invisible here. -/
def Fold (q : Queue T) (initial : A) (f : A → GoElem T → A × Option E) :
    A × Option E :=
  FoldUnsecure q initial f

/-- MapUnsecure (src/unnamed/part_002:231-252): the new queue is created with
`queueSlice: make([]Element[Tnew], q.numElements)` — a slice of `numElements`
nil interface values — and `numElements: q.numElements`; the loop then calls
the public `newQueue.Insert(newElem)` (return value discarded) for every kept
element, so the nil placeholders remain in the buffer.  A projector error
aborts with that error (wrapped, identity); a panic inside `Insert`
propagates (`none`). -/
def MapUnsecure (q : Queue Told) (f : GoElem Told → GoElem Tnew × Bool × Option E) :
    Option (Except E (Queue Tnew)) :=
  go ⟨q.order, List.replicate q.numElements .nilElem, q.numElements,
      q.numElements, q.maxnumElements⟩ q.queueSlice
where
  go (nq : Queue Tnew) : List (GoElem Told) → Option (Except E (Queue Tnew))
  | [] => some (.ok nq)
  | e :: rest =>
    match f e with
    | (newElem, true, none) =>
      match nq.insert newElem with
      | none => none
      | some (_, nq') => go nq' rest
    | (_, _, some err) => some (.error err)
    | (_, false, none) => go nq rest

/-- Map (src/unnamed/part_002:216-224): locks `q` and delegates to
MapUnsecure (the inner Inserts lock only the fresh queue, so no nesting on
`q`'s lock occurs). -/
def Map (q : Queue Told) (f : GoElem Told → GoElem Tnew × Bool × Option E) :
    Option (Except E (Queue Tnew)) :=
  MapUnsecure q f

namespace Queue

/-- Result of UpdatePriority: a normal return with the counter and the
post-state, a self-deadlock (the function holds the queue's mutex and calls
the public, locking `Insert` on the same queue — Go mutexes are not
re-entrant), or a runtime panic. -/
inductive UPRes (T : Type) where
  | ret (counter : ℕ) (q : Queue T)
  | deadlock
  | panics
deriving DecidableEq, Repr

/-- State of UpdatePriority's priority-order scan
(src/queue/queue.go:208-222), modelled at the level of the shared backing
array: `for i, e := range q.queueSlice` snapshots the slice header once, so
the loop keeps reading absolute positions `0..n0-1` of `backing`, while the
in-loop `deleteWithoutMemoryManagement` calls mutate the same backing array
through the queue's current view, `(off, vlen)`, with live count `n`.
`list` is the reinsertion buffer of the non-performance mode. -/
structure ScanSt (T : Type) where
  backing : List (GoElem T)
  off : ℕ
  vlen : ℕ
  n : ℕ
  list : List (GoElem T)
deriving DecidableEq, Repr

/-- deleteWithoutMemoryManagement as invoked (result discarded) from inside
UpdatePriority's scan, expressed on the shared backing array: the same
branches as `deleteWithoutMemoryManagement` above, with view position `j`
living at backing position `off + j`.  Errors are ignored by the caller, so
they leave the state unchanged; `none` is a panic on the element read. -/
def deleteB (st : ScanSt T) (i : ℤ) : Option (ScanSt T) :=
  if (st.n : ℤ) = 0 then some st
  else if i < 0 ∨ i ≥ (st.n : ℤ) then some st
  else
    match st.backing.get? (st.off + i.toNat) with
    | none => none
    | some _ =>
      if i = (st.n : ℤ) then
        some { st with vlen := i.toNat, n := st.n - 1 }
      else if i = 0 then
        some { st with backing := st.backing.set st.off .nilElem,
                       off := st.off + 1, vlen := st.vlen - 1, n := st.n - 1 }
      else
        -- copy(qs[i:], qs[i+1:]) writes the window one slot down in place
        let s := st.off + i.toNat
        let moved := (st.backing.drop (s + 1)).take (st.vlen - i.toNat - 1)
        let b1 := st.backing.take s ++ moved ++ st.backing.drop (s + moved.length)
        some { st with backing := b1.set (st.off + st.n - 1) .nilElem,
                       vlen := st.n - 1, n := st.n - 1 }

/-- Outcome of UpdatePriority's priority-order scan loop. -/
inductive ScanRes (T : Type) where
  | done (st : ScanSt T)
  | deadlock
  | panics

/-- The scan loop of UpdatePriority's PriorityHigh/PriorityLow branch
(src/queue/queue.go:208-222).  The loop runs over the snapshotted range
length `n0` (encoded structurally: the first numeric argument is the count
of remaining iterations `n0 - i`, the second the current index `i`); on a
priority match the element is detached (errors discarded), its priority set,
and either immediately re-`Insert`ed — which self-deadlocks on the held
mutex — or appended to the reinsertion buffer.  The local `modFlag` of the
source is never set, so its `break` is dead and not modelled. -/
def scanLoop (oldP newP : ℚ) (perf : Bool) :
    ScanSt T → ℕ → ℕ → ScanRes T
  | st, 0, _ => .done st
  | st, fuel + 1, i =>
    match st.backing.get? i with
    | none => .panics
    | some e =>
      match e.priorityM with
      | none => .panics
      | some pe =>
        if pe = oldP then
          match deleteB st (i : ℤ) with
          | none => .panics
          | some st1 =>
            match e.setPriorityM newP with
            | none => .panics
            | some e' =>
              if perf then .deadlock
              else scanLoop oldP newP perf { st1 with list := st1.list ++ [e'] } fuel (i + 1)
        else scanLoop oldP newP perf st fuel (i + 1)

/-- The Lifo/Fifo branch of UpdatePriority (src/queue/queue.go:193-202): an
in-place pass that bumps the counter and calls `SetPriority` (a no-op on
base elements) for every match; reading a nil slot's priority panics. -/
def fifoLifoPass (oldP newP : ℚ) : List (GoElem T) → Option (List (GoElem T) × ℕ)
  | [] => some ([], 0)
  | e :: rest =>
    match e.priorityM with
    | none => none
    | some pe =>
      if pe = oldP then
        match e.setPriorityM newP with
        | none => none
        | some e' => (fifoLifoPass oldP newP rest).map fun r => (e' :: r.1, r.2 + 1)
      else (fifoLifoPass oldP newP rest).map fun r => (e :: r.1, r.2)

/-- UpdatePriority (src/queue/queue.go:181-233).  For Lifo/Fifo, the counted
in-place pass.  For PriorityHigh/PriorityLow, the detaching scan — whose
counter is never incremented — followed (in non-performance mode) by the
oldest-first reinsertion loop, whose first `q.Insert` call self-deadlocks on
the mutex already held by UpdatePriority; in performance mode that same
deadlock happens inside the scan at the first match.  Other order values hit
no switch arm and return counter 0. -/
def UpdatePriority (q : Queue T) (oldP newP : ℚ) (performanceFlag : Bool) :
    UPRes T :=
  if q.order = Lifo ∨ q.order = Fifo then
    match fifoLifoPass oldP newP q.queueSlice with
    | none => .panics
    | some (l, c) => .ret c { q with queueSlice := l }
  else if q.order = PriorityHigh ∨ q.order = PriorityLow then
    match scanLoop oldP newP performanceFlag
        ⟨q.queueSlice, 0, q.queueSlice.length, q.numElements, []⟩
        q.queueSlice.length 0 with
    | .panics => .panics
    | .deadlock => .deadlock
    | .done st =>
      match performanceFlag, st.list with
      | false, _ :: _ => .deadlock
      | _, _ => .ret 0 { q with queueSlice := (st.backing.drop st.off).take st.vlen,
                                numElements := st.n }
  else .ret 0 q

end Queue

/-- A caller-visible mutation step for the queue: inserting an element built
with `NewBaseElement`, inserting one built with `NewPriorityElement`, or a
`Remove` call. -/
inductive QOp (T : Type) where
  | insBase (c : T)
  | insPrio (c : T) (p : ℚ)
  | rem
deriving DecidableEq, Repr

/-- Run a sequence of Insert/Remove calls; a call that returns an error
leaves its returned state in effect and the run continues (the caller simply
observed the error), while a runtime panic aborts the run (`none`): the
program has no post-state then. -/
def runOps [Inhabited T] : Queue T → List (QOp T) → Option (Queue T)
  | q, [] => some q
  | q, .insBase c :: ops =>
    match q.insert (.base c) with
    | none => none
    | some (_, q') => runOps q' ops
  | q, .insPrio c p :: ops =>
    match q.insert (.prio c p) with
    | none => none
    | some (_, q') => runOps q' ops
  | q, .rem :: ops =>
    match q.Remove with
    | none => none
    | some (_, _, _, q') => runOps q' ops

/-- The number of elements retrievable by calling `Remove` repeatedly (with
the given amount of attempts) until it first fails. -/
def drainCount [Inhabited T] : Queue T → ℕ → ℕ
  | _, 0 => 0
  | q, fuel + 1 =>
    match q.Remove with
    | some (_, _, none, q') => drainCount q' fuel + 1
    | _ => 0

/-- Run a sequence of Inserts, requiring every one of them to complete
without error; a panic or an error aborts (`none`). -/
def insertSeq : Queue T → List (GoElem T) → Option (Queue T)
  | q, [] => some q
  | q, e :: es =>
    match q.insert e with
    | some (none, q') => insertSeq q' es
    | _ => none

/-- Well-formedness carried along Insert/Remove sequences: the live count
never exceeds the slice view, and the view holds no nil interface values
(elements enter only through the `NewBaseElement`/`NewPriorityElement`
constructors). -/
def QueueWF (q : Queue T) : Prop :=
  q.numElements ≤ q.queueSlice.length ∧ ∀ e ∈ q.queueSlice, e ≠ GoElem.nilElem

/-- Setting a slot and then taking only the part before it is the same as
taking that part of the original list. -/
theorem take_set_eq {α : Type} : ∀ (l : List α) (k : ℕ) (a : α),
    (l.set k a).take k = l.take k
  | [], _, _ => rfl
  | _ :: _, 0, _ => rfl
  | x :: xs, k + 1, a => by
    simp only [List.set_cons_succ, List.take_succ_cons, List.cons.injEq, true_and]
    exact take_set_eq xs k a

/-- Setting slot 0 and then dropping one element is just dropping one. -/
theorem set_zero_drop_one {α : Type} : ∀ (l : List α) (a : α),
    (l.set 0 a).drop 1 = l.drop 1
  | [], _ => rfl
  | _ :: _, _ => rfl

namespace Queue

/-- Every entry of a successful backtrackInsertionPoint result is either the
inserted element or an entry of the scanned slice. -/
theorem backtrackAux_sub (qs : List (GoElem T)) (elem : GoElem T) (pp : ℚ) :
    ∀ fuel l', backtrackAux qs elem pp fuel = some l' →
      ∀ x ∈ l', x = elem ∨ x ∈ qs
  | 0, l', h => by
    cases h
    intro x hx
    rcases List.mem_cons.mp hx with h | h
    · exact Or.inl h
    · exact Or.inr h
  | fuel + 1, l', h => by
    revert h
    unfold backtrackAux
    cases hget : qs.get? fuel with
    | none => intro h; cases h
    | some e =>
      cases hp : e.priorityM with
      | none => simp only [hp]; intro h; cases h
      | some pi =>
        simp only [hp]
        by_cases hpi : pi = pp
        · simp only [hpi, if_pos rfl]
          exact backtrackAux_sub qs elem pp fuel l'
        · simp only [if_neg hpi]
          intro h x hx
          cases h
          rcases List.mem_append.mp hx with h | h
          · exact Or.inr (List.drop_subset _ _ h)
          · rcases List.mem_cons.mp h with h | h
            · exact Or.inl h
            · exact Or.inr (List.take_subset _ _ h)

/-- A successful backtrackInsertionPoint result contains the inserted
element. -/
theorem backtrackAux_mem_elem (qs : List (GoElem T)) (elem : GoElem T) (pp : ℚ) :
    ∀ fuel l', backtrackAux qs elem pp fuel = some l' → elem ∈ l'
  | 0, l', h => by cases h; exact List.mem_cons_self _ _
  | fuel + 1, l', h => by
    revert h
    unfold backtrackAux
    cases hget : qs.get? fuel with
    | none => intro h; cases h
    | some e =>
      cases hp : e.priorityM with
      | none => simp only [hp]; intro h; cases h
      | some pi =>
        simp only [hp]
        by_cases hpi : pi = pp
        · simp only [hpi, if_pos rfl]
          exact backtrackAux_mem_elem qs elem pp fuel l'
        · simp only [if_neg hpi]
          intro h
          cases h
          exact List.mem_append.mpr (Or.inr (List.mem_cons_self _ _))

/-- A successful backtrackInsertionPoint result is one entry longer than the
scanned slice. -/
theorem backtrackAux_length (qs : List (GoElem T)) (elem : GoElem T) (pp : ℚ) :
    ∀ fuel l', backtrackAux qs elem pp fuel = some l' →
      l'.length = qs.length + 1
  | 0, l', h => by cases h; simp
  | fuel + 1, l', h => by
    revert h
    unfold backtrackAux
    cases hget : qs.get? fuel with
    | none => intro h; cases h
    | some e =>
      have hlt : fuel < qs.length := List.get?_eq_some.mp hget |>.1
      cases hp : e.priorityM with
      | none => simp only [hp]; intro h; cases h
      | some pi =>
        simp only [hp]
        by_cases hpi : pi = pp
        · simp only [hpi, if_pos rfl]
          exact backtrackAux_length qs elem pp fuel l'
        · simp only [if_neg hpi]
          intro h
          cases h
          simp only [List.length_append, List.length_drop, List.length_cons,
            List.length_take]
          omega

/-- Every entry of a successful default-scan splice is either the inserted
element or an entry of the scanned slice. -/
theorem spliceScan_sub (qs : List (GoElem T)) (elem : GoElem T)
    (cont : ℚ → ℚ → Bool) (pp : ℚ) :
    ∀ rest i l', spliceScan qs elem cont pp i rest = some l' →
      ∀ x ∈ l', x = elem ∨ x ∈ qs
  | [], _, l', h => by cases h; exact fun x hx => Or.inr hx
  | e :: rest, i, l', h => by
    revert h
    unfold spliceScan
    cases hp : e.priorityM with
    | none => simp only [hp]; intro h; cases h
    | some pe =>
      simp only [hp]
      by_cases hc : cont pe pp
      · simp only [hc, if_pos rfl]
        exact spliceScan_sub qs elem cont pp rest (i + 1) l'
      · simp only [if_neg hc]
        by_cases hi : i = 0
        · simp only [hi, if_pos rfl]
          intro h; cases h
        · simp only [if_neg hi]
          intro h x hx
          cases h
          rcases List.mem_append.mp hx with h | h
          · exact Or.inr (List.take_subset _ _ h)
          · rcases List.mem_cons.mp h with h | h
            · exact Or.inl h
            · exact Or.inr (List.drop_subset _ _ h)

/-- When some remaining entry fails the continue condition, a successful
default-scan result is one entry longer than the scanned slice (the loop
cannot fall off the end, so the unchanged-slice outcome is impossible).
The index bookkeeping hypothesis ties the remaining suffix to the index. -/
theorem spliceScan_length (qs : List (GoElem T)) (elem : GoElem T)
    (cont : ℚ → ℚ → Bool) (pp : ℚ) :
    ∀ rest i l', rest.length + i = qs.length →
      (∃ x ∈ rest, ∃ p, x.priorityM = some p ∧ cont p pp = false) →
      spliceScan qs elem cont pp i rest = some l' →
      l'.length = qs.length + 1
  | [], _, l', _, hwit, _ => by
    rcases hwit with ⟨x, hx, _⟩
    cases hx
  | e :: rest, i, l', hlen, hwit, h => by
    revert h
    unfold spliceScan
    cases hp : e.priorityM with
    | none => simp only [hp]; intro h; cases h
    | some pe =>
      simp only [hp]
      by_cases hc : cont pe pp
      · simp only [hc, if_pos rfl]
        refine spliceScan_length qs elem cont pp rest (i + 1) l' ?_ ?_
        · simp only [List.length_cons] at hlen; omega
        · rcases hwit with ⟨x, hx, p, hxp, hcp⟩
          rcases List.mem_cons.mp hx with hxe | hxr
          · exfalso
            rw [hxe, hp] at hxp
            cases hxp
            rw [hcp] at hc
            simp at hc
          · exact ⟨x, hxr, p, hxp, hcp⟩
      · simp only [if_neg hc]
        by_cases hi : i = 0
        · simp only [hi, if_pos rfl]
          intro h; cases h
        · simp only [if_neg hi]
          intro h
          cases h
          have : i < qs.length := by
            simp only [List.length_cons] at hlen; omega
          simp only [List.length_append, List.length_cons, List.length_take,
            List.length_drop]
          omega

/-- Behaviour of the default-scan splice followed by the slice reassignment,
given a witness entry that fails the continue condition: the result grows
the scanned slice by exactly one and only adds the inserted element. -/
theorem spliceMap_spec (q : Queue T) (elem : GoElem T) (cont : ℚ → ℚ → Bool)
    (pp : ℚ) (qs1 : List (GoElem T)) (q' : Queue T)
    (hwit : ∃ x ∈ qs1, ∃ p, x.priorityM = some p ∧ cont p pp = false)
    (h : (spliceScan qs1 elem cont pp 0 qs1).map q.withSlice = some q') :
    q'.numElements = q.numElements ∧
    q'.queueSlice.length = qs1.length + 1 ∧
    ∀ x ∈ q'.queueSlice, x = elem ∨ x ∈ qs1 := by
  cases hs : spliceScan qs1 elem cont pp 0 qs1 with
  | none => rw [hs] at h; cases h
  | some l2 =>
    rw [hs] at h
    cases h
    have hlen := spliceScan_length qs1 elem cont pp qs1 0 l2 (by omega) hwit hs
    have hsub := spliceScan_sub qs1 elem cont pp qs1 0 l2 hs
    exact ⟨rfl, by simpa [withSlice] using hlen, fun x hx => hsub x hx⟩

/-- Structural effect of a completed insertPriorityHigh: the live count is
untouched (the caller increments it), the slice grows by at least one entry
(by two on the tie path, which splices the element twice), and every entry
of the new slice is the inserted element or one of the old entries. -/
theorem insertPriorityHigh_spec (q : Queue T) (elem : GoElem T) (q' : Queue T)
    (h : q.insertPriorityHigh elem = some q') :
    q'.numElements = q.numElements ∧
    q.queueSlice.length + 1 ≤ q'.queueSlice.length ∧
    ∀ x ∈ q'.queueSlice, x = elem ∨ x ∈ q.queueSlice := by
  unfold insertPriorityHigh at h
  by_cases h0 : q.numElements = 0
  · rw [if_pos h0] at h
    cases h
    refine ⟨rfl, by simp [withSlice], fun x hx => ?_⟩
    simp only [withSlice] at hx
    rcases List.mem_append.mp hx with hx | hx
    · exact Or.inr hx
    · exact Or.inl (List.mem_singleton.mp hx)
  · rw [if_neg h0] at h
    cases hget : q.queueSlice.get? (q.numElements - 1) with
    | none => rw [hget] at h; cases h
    | some tail =>
      rw [hget] at h
      cases hpt : tail.priorityM with
      | none => simp only [hpt] at h; exact Option.noConfusion h
      | some tp =>
        cases hpe : elem.priorityM with
        | none => simp only [hpt, hpe] at h; exact Option.noConfusion h
        | some pp =>
          simp only [hpt, hpe] at h
          by_cases hlt : tp < pp
          · rw [if_pos hlt] at h
            cases h
            refine ⟨rfl, by simp [withSlice], fun x hx => ?_⟩
            simp only [withSlice] at hx
            rcases List.mem_append.mp hx with hx | hx
            · exact Or.inr hx
            · exact Or.inl (List.mem_singleton.mp hx)
          · rw [if_neg hlt] at h
            by_cases htie : tp = pp
            · rw [if_pos htie] at h
              cases hbt : backtrackAux q.queueSlice elem pp q.numElements with
              | none => rw [hbt] at h; cases h
              | some qs1 =>
                rw [hbt] at h
                have hlen1 := backtrackAux_length _ _ _ _ _ hbt
                have hmem1 := backtrackAux_mem_elem _ _ _ _ _ hbt
                have hsub1 := backtrackAux_sub _ _ _ _ _ hbt
                obtain ⟨hn', hlen2, hsub2⟩ :=
                  spliceMap_spec q elem _ pp qs1 q' ⟨elem, hmem1, pp, hpe, by simp⟩ h
                refine ⟨hn', by omega, fun x hx => ?_⟩
                rcases hsub2 x hx with hx' | hx'
                · exact Or.inl hx'
                · exact hsub1 x hx'
            · rw [if_neg htie] at h
              have htail : tail ∈ q.queueSlice := List.get?_mem hget
              obtain ⟨hn', hlen2, hsub2⟩ :=
                spliceMap_spec q elem _ pp q.queueSlice q'
                  ⟨tail, htail, tp, hpt, by simp [hlt]⟩ h
              exact ⟨hn', by omega, hsub2⟩

/-- Structural effect of a completed insertPriorityLow: mirror image of
insertPriorityHigh_spec. -/
theorem insertPriorityLow_spec (q : Queue T) (elem : GoElem T) (q' : Queue T)
    (h : q.insertPriorityLow elem = some q') :
    q'.numElements = q.numElements ∧
    q.queueSlice.length + 1 ≤ q'.queueSlice.length ∧
    ∀ x ∈ q'.queueSlice, x = elem ∨ x ∈ q.queueSlice := by
  unfold insertPriorityLow at h
  by_cases h0 : q.numElements = 0
  · rw [if_pos h0] at h
    cases h
    refine ⟨rfl, by simp [withSlice], fun x hx => ?_⟩
    simp only [withSlice] at hx
    rcases List.mem_append.mp hx with hx | hx
    · exact Or.inr hx
    · exact Or.inl (List.mem_singleton.mp hx)
  · rw [if_neg h0] at h
    cases hget : q.queueSlice.get? (q.numElements - 1) with
    | none => rw [hget] at h; cases h
    | some tail =>
      rw [hget] at h
      cases hpt : tail.priorityM with
      | none => simp only [hpt] at h; exact Option.noConfusion h
      | some tp =>
        cases hpe : elem.priorityM with
        | none => simp only [hpt, hpe] at h; exact Option.noConfusion h
        | some pp =>
          simp only [hpt, hpe] at h
          by_cases hlt : tp > pp
          · rw [if_pos hlt] at h
            cases h
            refine ⟨rfl, by simp [withSlice], fun x hx => ?_⟩
            simp only [withSlice] at hx
            rcases List.mem_append.mp hx with hx | hx
            · exact Or.inr hx
            · exact Or.inl (List.mem_singleton.mp hx)
          · rw [if_neg hlt] at h
            by_cases htie : tp = pp
            · rw [if_pos htie] at h
              cases hbt : backtrackAux q.queueSlice elem pp q.numElements with
              | none => rw [hbt] at h; cases h
              | some qs1 =>
                rw [hbt] at h
                have hlen1 := backtrackAux_length _ _ _ _ _ hbt
                have hmem1 := backtrackAux_mem_elem _ _ _ _ _ hbt
                have hsub1 := backtrackAux_sub _ _ _ _ _ hbt
                obtain ⟨hn', hlen2, hsub2⟩ :=
                  spliceMap_spec q elem _ pp qs1 q' ⟨elem, hmem1, pp, hpe, by simp⟩ h
                refine ⟨hn', by omega, fun x hx => ?_⟩
                rcases hsub2 x hx with hx' | hx'
                · exact Or.inl hx'
                · exact hsub1 x hx'
            · rw [if_neg htie] at h
              have htail : tail ∈ q.queueSlice := List.get?_mem hget
              obtain ⟨hn', hlen2, hsub2⟩ :=
                spliceMap_spec q elem _ pp q.queueSlice q'
                  ⟨tail, htail, tp, hpt, by simp [hlt]⟩ h
              exact ⟨hn', by omega, hsub2⟩

/-- handleShrink only reallocates the backing array: the slice contents and
the live count are untouched. -/
theorem handleShrink_pres (q : Queue T) :
    (q.handleShrink).queueSlice = q.queueSlice ∧
    (q.handleShrink).numElements = q.numElements := by
  unfold handleShrink
  dsimp only
  split
  · exact ⟨rfl, rfl⟩
  · exact ⟨rfl, rfl⟩

/-- Removing at index numElements-1 on a well-formed non-empty queue
succeeds, returns a buffer entry, decrements the live count by one and keeps
the live count within the (shrunken) slice, which holds only old entries. -/
theorem deleteWMM_last (q : Queue T) (hlen : q.numElements ≤ q.queueSlice.length)
    (hn : 1 ≤ q.numElements) :
    ∃ el q', q.deleteWithoutMemoryManagement ((q.numElements : ℤ) - 1) =
        some (some el, none, q') ∧ el ∈ q.queueSlice ∧
      q'.numElements = q.numElements - 1 ∧
      q'.numElements ≤ q'.queueSlice.length ∧
      ∀ x ∈ q'.queueSlice, x ∈ q.queueSlice := by
  have hlt : q.numElements - 1 < q.queueSlice.length := by omega
  have htoNat : (((q.numElements : ℤ) - 1)).toNat = q.numElements - 1 := by omega
  have hget : q.queueSlice.get? (q.numElements - 1) =
      some (q.queueSlice.get ⟨q.numElements - 1, hlt⟩) := List.get?_eq_get hlt
  refine ⟨q.queueSlice.get ⟨q.numElements - 1, hlt⟩, ?_, ?_, ?_⟩
  · exact if (q.numElements : ℤ) - 1 = 0 then
      ({ q.withSlice ((q.queueSlice.set 0 .nilElem).drop 1) with
         numElements := q.numElements - 1 }) else
      ({ q.withSlice (((q.queueSlice.take (q.numElements - 1) ++
           q.queueSlice.drop (q.numElements - 1 + 1) ++
           q.queueSlice.drop (q.queueSlice.length - 1)).set
             (q.numElements - 1) .nilElem).take (q.numElements - 1)) with
         numElements := q.numElements - 1 })
  · unfold deleteWithoutMemoryManagement
    rw [if_neg (by omega), if_neg (by omega), htoNat, hget]
    dsimp only
    rw [if_neg (by omega)]
    split
    · rfl
    · rfl
  · constructor
    · exact List.get_mem _ _ _
    split
    · refine ⟨rfl, ?_, ?_⟩
      · simp only [withSlice, set_zero_drop_one]
        simp only [List.length_drop]
        omega
      · intro x hx
        simp only [withSlice, set_zero_drop_one] at hx
        exact List.drop_subset _ _ hx
    · have hsl : (((q.queueSlice.take (q.numElements - 1) ++
          q.queueSlice.drop (q.numElements - 1 + 1) ++
          q.queueSlice.drop (q.queueSlice.length - 1)).set
            (q.numElements - 1) GoElem.nilElem).take (q.numElements - 1)) =
          q.queueSlice.take (q.numElements - 1) := by
        rw [take_set_eq, List.append_assoc]
        exact List.take_left' (by simp only [List.length_take]; omega)
      refine ⟨rfl, ?_, ?_⟩
      · simp only [withSlice, hsl, List.length_take]
        omega
      · intro x hx
        simp only [withSlice, hsl] at hx
        exact List.take_subset _ _ hx

/-- The public remove at the tail index: deleteWithoutMemoryManagement
followed by the unconditional handleShrink. -/
theorem remove_last (q : Queue T) (hlen : q.numElements ≤ q.queueSlice.length)
    (hn : 1 ≤ q.numElements) :
    ∃ el q', q.remove ((q.numElements : ℤ) - 1) = some (some el, none, q') ∧
      el ∈ q.queueSlice ∧ q'.numElements = q.numElements - 1 ∧
      q'.numElements ≤ q'.queueSlice.length ∧
      ∀ x ∈ q'.queueSlice, x ∈ q.queueSlice := by
  obtain ⟨el, q', heq, hmem, h1, h2, h3⟩ := deleteWMM_last q hlen hn
  obtain ⟨hs1, hs2⟩ := handleShrink_pres q'
  refine ⟨el, q'.handleShrink, ?_, hmem, ?_, ?_, ?_⟩
  · unfold remove
    rw [heq]
    rfl
  · rw [hs2]; exact h1
  · rw [hs1, hs2]; exact h2
  · rw [hs1]; exact h3

/-- Remove on a well-formed queue with at least one live element succeeds
and decrements the live count by one, preserving well-formedness. -/
theorem Remove_succ [Inhabited T] (q : Queue T) (hWF : QueueWF q)
    (hn : 1 ≤ q.numElements) :
    ∃ c p q', q.Remove = some (c, p, none, q') ∧
      q'.numElements = q.numElements - 1 ∧ QueueWF q' := by
  obtain ⟨el, q', heq, hmem, h1, h2, h3⟩ := remove_last q hWF.1 hn
  have hne : el ≠ GoElem.nilElem := hWF.2 el hmem
  have hWF' : QueueWF q' := ⟨h2, fun x hx => hWF.2 x (h3 x hx)⟩
  cases el with
  | base c =>
    refine ⟨c, 0, q', ?_, h1, hWF'⟩
    unfold Remove
    rw [heq]
    rfl
  | prio c p =>
    refine ⟨c, p, q', ?_, h1, hWF'⟩
    unfold Remove
    rw [heq]
    rfl
  | nilElem => exact absurd rfl hne

/-- Remove on an empty queue reports EmptyQueue and only (possibly)
reallocates the backing array. -/
theorem Remove_zero [Inhabited T] (q : Queue T) (h : q.numElements = 0) :
    q.Remove = some (default, 0, some GoErr.emptyQueue, q.handleShrink) := by
  unfold Remove remove deleteWithoutMemoryManagement
  rw [if_pos (by omega : ((q.numElements : ℤ)) = 0)]
  rfl

/-- Inserting a non-nil element preserves well-formedness on every dispatch
path, whether the insert reports an error or not. -/
theorem insert_WF (q : Queue T) (e : GoElem T) (r : Option GoErr) (q' : Queue T)
    (he : e ≠ GoElem.nilElem) (hWF : QueueWF q) (h : q.insert e = some (r, q')) :
    QueueWF q' := by
  obtain ⟨hWF1, hWF2⟩ := hWF
  unfold insert at h
  by_cases hf : q.order = Fifo
  · rw [if_pos hf] at h
    cases h
    refine ⟨?_, ?_⟩
    · simp only [insertFifo, withSlice, List.length_cons]
      omega
    · intro x hx
      simp only [insertFifo, withSlice, List.mem_cons] at hx
      rcases hx with hx | hx
      · exact hx ▸ he
      · exact hWF2 x hx
  rw [if_neg hf] at h
  by_cases hl : q.order = Lifo
  · rw [if_pos hl] at h
    cases h
    refine ⟨?_, ?_⟩
    · simp only [insertLifo, withSlice, List.length_append, List.length_cons]
      omega
    · intro x hx
      simp only [insertLifo, withSlice, List.mem_append, List.mem_singleton] at hx
      rcases hx with hx | hx
      · exact hWF2 x hx
      · exact hx ▸ he
  rw [if_neg hl] at h
  by_cases hph : q.order = PriorityHigh
  · rw [if_pos hph] at h
    cases hip : q.insertPriorityHigh e with
    | none => rw [hip] at h; cases h
    | some q2 =>
      rw [hip] at h
      cases h
      obtain ⟨hn2, hlen2, hsub2⟩ := insertPriorityHigh_spec q e q2 hip
      refine ⟨by simp only [hn2]; omega, fun x hx => ?_⟩
      rcases hsub2 x hx with hx' | hx'
      · exact hx' ▸ he
      · exact hWF2 x hx'
  rw [if_neg hph] at h
  by_cases hpl : q.order = PriorityLow
  · rw [if_pos hpl] at h
    cases hip : q.insertPriorityLow e with
    | none => rw [hip] at h; cases h
    | some q2 =>
      rw [hip] at h
      cases h
      obtain ⟨hn2, hlen2, hsub2⟩ := insertPriorityLow_spec q e q2 hip
      refine ⟨by simp only [hn2]; omega, fun x hx => ?_⟩
      rcases hsub2 x hx with hx' | hx'
      · exact hx' ▸ he
      · exact hWF2 x hx'
  rw [if_neg hpl] at h
  by_cases hfl : q.order = FifoLimited
  · rw [if_pos hfl] at h
    unfold insertFifoLimited at h
    by_cases hev : (q.numElements : ℤ) = q.maxnumElements ∧ q.maxnumElements ≠ 0
    · rw [if_pos hev] at h
      have hn1 : 1 ≤ q.numElements := by
        rcases Nat.eq_zero_or_pos q.numElements with h0 | h0
        · exfalso; apply hev.2; rw [← hev.1, h0]; rfl
        · omega
      obtain ⟨el, q2, heq, hmem, h1, h2, h3⟩ := remove_last q hWF1 hn1
      rw [heq] at h
      cases h
      refine ⟨?_, ?_⟩
      · simp only [insertFifo, withSlice, List.length_cons]
        omega
      · intro x hx
        simp only [insertFifo, withSlice, List.mem_cons] at hx
        rcases hx with hx | hx
        · exact hx ▸ he
        · exact hWF2 x (h3 x hx)
    · rw [if_neg hev] at h
      cases h
      refine ⟨?_, ?_⟩
      · simp only [insertFifo, withSlice, List.length_cons]
        omega
      · intro x hx
        simp only [insertFifo, withSlice, List.mem_cons] at hx
        rcases hx with hx | hx
        · exact hx ▸ he
        · exact hWF2 x hx
  rw [if_neg hfl] at h
  cases h
  exact ⟨hWF1, hWF2⟩

end Queue

/-- Running any Insert/Remove call sequence from a well-formed queue keeps
the queue well formed (whenever the run completes without a runtime panic). -/
theorem runOps_WF [Inhabited T] :
    ∀ (ops : List (QOp T)) (q q' : Queue T), QueueWF q →
      runOps q ops = some q' → QueueWF q'
  | [], q, q', hWF, h => by cases h; exact hWF
  | .insBase c :: ops, q, q', hWF, h => by
    revert h
    unfold runOps
    cases hins : q.insert (.base c) with
    | none => intro h; cases h
    | some rq =>
      intro h
      exact runOps_WF ops rq.2 q' (Queue.insert_WF q (GoElem.base c) rq.1 rq.2
        (by simp) hWF (by rw [hins])) h
  | .insPrio c p :: ops, q, q', hWF, h => by
    revert h
    unfold runOps
    cases hins : q.insert (.prio c p) with
    | none => intro h; cases h
    | some rq =>
      intro h
      exact runOps_WF ops rq.2 q' (Queue.insert_WF q (GoElem.prio c p) rq.1 rq.2
        (by simp) hWF (by rw [hins])) h
  | .rem :: ops, q, q', hWF, h => by
    revert h
    unfold runOps
    cases hrem : q.Remove with
    | none => intro h; cases h
    | some r =>
      intro h
      refine runOps_WF ops r.2.2.2 q' ?_ h
      by_cases hn : q.numElements = 0
      · rw [Queue.Remove_zero q hn] at hrem
        cases hrem
        obtain ⟨hs1, hs2⟩ := Queue.handleShrink_pres q
        exact ⟨by rw [hs1, hs2]; exact hWF.1, by rw [hs1]; exact hWF.2⟩
      · obtain ⟨c, p, q2, heq, h1, hWF2⟩ := Queue.Remove_succ q hWF (by omega)
        rw [heq] at hrem
        cases hrem
        exact hWF2

/-- On a well-formed queue, draining with at least numElements many Remove
attempts retrieves exactly numElements elements. -/
theorem drainCount_eq [Inhabited T] :
    ∀ (fuel : ℕ) (q : Queue T), QueueWF q → q.numElements ≤ fuel →
      drainCount q fuel = q.numElements
  | 0, q, _, hle => by
    unfold drainCount
    omega
  | fuel + 1, q, hWF, hle => by
    by_cases hn : q.numElements = 0
    · unfold drainCount
      rw [Queue.Remove_zero q hn, hn]
    · obtain ⟨c, p, q2, heq, h1, hWF2⟩ := Queue.Remove_succ q hWF (by omega)
      unfold drainCount
      rw [heq]
      show drainCount q2 fuel + 1 = q.numElements
      rw [drainCount_eq fuel q2 hWF2 (by omega)]
      omega

/-- C1: refuted on the code.  Inserting priorities 1, 5, 5, 7 into a
PriorityHigh queue completes without error or panic (the tied third insert
is spliced twice: once by backtrackInsertionPoint and once more by the
fall-through default scan), after which the buffer holds five entries for a
live count of 4: the element at buffer index liveCount-1 carries priority 5
and is what Remove returns, although an element of priority 7 — which the
PriorityHigh discipline must remove first — sits in the buffer. -/
theorem c1_tail_element_not_next_removed :
    insertSeq (⟨PriorityHigh, [], 0, 0, 0⟩ : Queue ℕ)
        [GoElem.prio 0 1, GoElem.prio 1 5, GoElem.prio 2 5, GoElem.prio 3 7] =
      some ⟨PriorityHigh, [GoElem.prio 2 5, GoElem.prio 0 1, GoElem.prio 1 5,
        GoElem.prio 2 5, GoElem.prio 3 7], 5, 4, 0⟩ ∧
    (⟨PriorityHigh, [GoElem.prio 2 5, GoElem.prio 0 1, GoElem.prio 1 5,
        GoElem.prio 2 5, GoElem.prio 3 7], 5, 4, 0⟩ : Queue ℕ).queueSlice.get? (4 - 1) =
      some (GoElem.prio 2 5) ∧
    Queue.Remove (⟨PriorityHigh, [GoElem.prio 2 5, GoElem.prio 0 1, GoElem.prio 1 5,
        GoElem.prio 2 5, GoElem.prio 3 7], 5, 4, 0⟩ : Queue ℕ) =
      some (2, 5, none, ⟨PriorityHigh, [GoElem.prio 2 5, GoElem.prio 0 1,
        GoElem.prio 1 5], 4, 3, 0⟩) ∧
    GoElem.prio 3 7 ∈ (⟨PriorityHigh, [GoElem.prio 2 5, GoElem.prio 0 1,
        GoElem.prio 1 5, GoElem.prio 2 5, GoElem.prio 3 7], 5, 4,
        0⟩ : Queue ℕ).queueSlice ∧
    (5 : ℚ) < 7 := by
  decide

/-- C2: refuted on the code.  In a PriorityHigh queue holding one element of
priority 5, inserting a second element of priority 5 panics: the tie path
runs backtrackInsertionPoint (prepending the new element), then — lacking a
return — falls into the default scan, whose first entry no longer satisfies
the continue condition, so the splice evaluates the slice expression
queueSlice[:(0-1)], a negative bound.  The claimed [5,5,5] insertion
sequence therefore dies at its second insert instead of establishing any
removal order. -/
theorem c2_tied_priority_insert_panics :
    Queue.insert (⟨PriorityHigh, [], 0, 0, 0⟩ : Queue ℕ) (GoElem.prio 0 5) =
      some (none, ⟨PriorityHigh, [GoElem.prio 0 5], 1, 1, 0⟩) ∧
    Queue.insert (⟨PriorityHigh, [GoElem.prio 0 5], 1, 1, 0⟩ : Queue ℕ)
      (GoElem.prio 1 5) = none ∧
    insertSeq (⟨PriorityHigh, [], 0, 0, 0⟩ : Queue ℕ)
      [GoElem.prio 0 5, GoElem.prio 1 5, GoElem.prio 2 5] = none := by
  decide

/-- C3: refuted on the code.  Insert's FifoLimited arm returns
insertFifoLimited's result directly and thereby skips the numElements
increment every other arm reaches, so after SetLimit(3) and five inserts the
live count is still 0: nothing was ever evicted, all five elements sit in
the buffer, and the first Remove reports EmptyQueue instead of returning the
third-oldest element. -/
theorem c3_fifolimited_insert_never_counts :
    Queue.SetLimit (⟨FifoLimited, [], 0, 0, 0⟩ : Queue ℕ) 3 =
      (none, ⟨FifoLimited, [], 0, 0, 3⟩) ∧
    insertSeq (⟨FifoLimited, [], 0, 0, 3⟩ : Queue ℕ)
        [GoElem.base 1, GoElem.base 2, GoElem.base 3, GoElem.base 4, GoElem.base 5] =
      some ⟨FifoLimited, [GoElem.base 5, GoElem.base 4, GoElem.base 3,
        GoElem.base 2, GoElem.base 1], 5, 0, 3⟩ ∧
    Queue.Remove (⟨FifoLimited, [GoElem.base 5, GoElem.base 4, GoElem.base 3,
        GoElem.base 2, GoElem.base 1], 5, 0, 3⟩ : Queue ℕ) =
      some (0, 0, some GoErr.emptyQueue, ⟨FifoLimited, [GoElem.base 5,
        GoElem.base 4, GoElem.base 3, GoElem.base 2, GoElem.base 1], 5, 0, 3⟩) := by
  decide

/-- C4: refuted on the code.  Folding a two-element queue with an error-free
content-appending step function returns the empty initial aggregate, not the
left-to-right reduction [1, 2]: the loop's short variable declaration
shadows the function-level aggregate, so it is never accumulated. -/
theorem c4_fold_returns_initial_aggregate :
    FoldUnsecure (E := GoErr) (⟨Lifo, [GoElem.base 1, GoElem.base 2], 2, 2, 0⟩ : Queue ℕ)
        ([] : List ℕ)
        (fun acc e => (acc ++ (GoElem.contentM e).elim [] (fun c => [c]), none)) =
      ([], none) ∧
    Fold (E := GoErr) (⟨Lifo, [GoElem.base 1, GoElem.base 2], 2, 2, 0⟩ : Queue ℕ)
        ([] : List ℕ)
        (fun acc e => (acc ++ (GoElem.contentM e).elim [] (fun c => [c]), none)) =
      ([], none) ∧
    ([] : List ℕ) ≠ [1, 2] := by
  decide

/-- C5: refuted on the code.  Mapping a one-element Fifo queue with the
always-keep identity projector yields a queue whose buffer still contains
the nil placeholder created by make([]Element, numElements), so
GetAllElements on the new queue panics dereferencing it — while on the
original it returns the buffer contents prefixed by one zero value (its own
make-then-append slip), so the two can never match element-for-element. -/
theorem c5_map_identity_breaks_getallelements :
    MapUnsecure (E := GoErr) (⟨Fifo, [GoElem.base 42], 1, 1, 0⟩ : Queue ℕ)
        (fun e => (e, true, none)) =
      some (Except.ok ⟨Fifo, [GoElem.base 42, GoElem.nilElem], 2, 2, 0⟩) ∧
    Queue.GetAllElements
        (⟨Fifo, [GoElem.base 42, GoElem.nilElem], 2, 2, 0⟩ : Queue ℕ) = none ∧
    Queue.GetAllElements (⟨Fifo, [GoElem.base 42], 1, 1, 0⟩ : Queue ℕ) =
      some [0, 42] :=
  ⟨rfl, rfl, rfl⟩

/-- C7: refuted on the code.  NewQueue validates the discipline with
tp > numQueuetypes instead of tp >= numQueuetypes, so the out-of-range
value 5 — not one of the five declared Queuetype constants — is accepted
and yields a queue instead of ErrInvalidQueueType. -/
theorem c7_newqueue_accepts_discipline_five :
    Queue.NewQueue (T := ℕ) 5 = Except.ok ⟨5, [], 0, 0, 0⟩ ∧
    (5 : ℤ) ∉ [Fifo, Lifo, PriorityHigh, PriorityLow, FifoLimited] :=
  ⟨rfl, by decide⟩

/-- C8: refuted on the code.  On a non-empty queue, PeekElemAtIndex rejects
only a negative realIndex, i.e. index >= liveCount; a negative index maps to
realIndex = liveCount - 1 - index >= liveCount, and the subsequent buffer
read panics (index out of range) instead of returning ErrIndexOutOfBounds.
One past the tail does return the error, as claimed. -/
theorem c8_peek_negative_index_panics :
    Queue.PeekElemAtIndex (⟨Lifo, [GoElem.base 7], 1, 1, 0⟩ : Queue ℕ) (-1) =
      none ∧
    Queue.PeekElemAtIndex (⟨Lifo, [GoElem.base 7], 1, 1, 0⟩ : Queue ℕ) 1 =
      some (0, 0, some GoErr.indexOutOfBounds) := by
  decide

/-- C9: refuted on the code.  On a PriorityHigh queue holding one element of
priority 2, UpdatePriority(2, 5, fastMode) never returns in either mode: the
matching element is detached and must be re-Inserted, and the public Insert
re-acquires the mutex UpdatePriority already holds — a self-deadlock (and
the priority branch never increments the counter anyway, unlike the
Fifo/Lifo branch, which counts the same update correctly). -/
theorem c9_updatepriority_deadlocks_on_priority_queue :
    Queue.UpdatePriority (⟨PriorityHigh, [GoElem.prio 9 2], 1, 1, 0⟩ : Queue ℕ)
      2 5 false = Queue.UPRes.deadlock ∧
    Queue.UpdatePriority (⟨PriorityHigh, [GoElem.prio 9 2], 1, 1, 0⟩ : Queue ℕ)
      2 5 true = Queue.UPRes.deadlock ∧
    Queue.UpdatePriority (⟨Fifo, [GoElem.prio 9 2], 1, 1, 0⟩ : Queue ℕ)
      2 5 false = Queue.UPRes.ret 1 ⟨Fifo, [GoElem.prio 9 5], 1, 1, 0⟩ := by
  decide

/-- C10: confirmed.  With liveCount = 0, PeekElemAtIndex and the internal
removal routine both return ErrEmptyQueue for every index value whatsoever —
the emptiness check runs before any index is inspected, so
ErrIndexOutOfBounds can never surface from an empty queue (and neither
routine mutates the state on this path). -/
theorem c10_empty_check_precedes_bounds (q : Queue ℕ) (index : ℤ)
    (h : q.numElements = 0) :
    Queue.PeekElemAtIndex q index = some (0, 0, some GoErr.emptyQueue) ∧
    Queue.deleteWithoutMemoryManagement q index =
      some (none, some GoErr.emptyQueue, q) := by
  constructor
  · simp [Queue.PeekElemAtIndex, h]
  · simp [Queue.deleteWithoutMemoryManagement, h]

/-- C6: confirmed.  For every Insert/Remove call sequence starting from a
well-formed queue — in particular from any freshly constructed queue, which
is empty — whenever the run completes (each call returning normally, with or
without an error), the final liveCount equals the number of elements
retrievable by calling Remove repeatedly until it fails, regardless of how
many shrink reallocations fired along the way: handleShrink copies every
live element (handleShrink_pres), so no removal is ever lost to a shrink. -/
theorem c6_livecount_matches_drain (q0 q : Queue ℕ) (ops : List (QOp ℕ))
    (fuel : ℕ) (hWF : QueueWF q0) (hrun : runOps q0 ops = some q)
    (hfuel : q.numElements ≤ fuel) :
    drainCount q fuel = q.numElements :=
  drainCount_eq fuel q (runOps_WF ops q0 q hWF hrun) hfuel

/-- Witness for C6: a Fifo queue, two inserts, a removal (with its shrink
check) and another insert leave liveCount 2, and draining with five Remove
attempts retrieves exactly 2 elements. -/
theorem c6_livecount_matches_drain_witness :
    drainCount (⟨Fifo, [GoElem.base 9, GoElem.base 8], 2, 2, 0⟩ : Queue ℕ) 5 =
      (⟨Fifo, [GoElem.base 9, GoElem.base 8], 2, 2, 0⟩ : Queue ℕ).numElements :=
  c6_livecount_matches_drain ⟨Fifo, [], 0, 0, 0⟩
    ⟨Fifo, [GoElem.base 9, GoElem.base 8], 2, 2, 0⟩
    [QOp.insBase 7, QOp.insBase 8, QOp.rem, QOp.insBase 9] 5
    ⟨by decide, by decide⟩ (by decide) (by decide)

/-- Witness for C10 at a concrete empty PriorityLow queue and the negative
index -4. -/
theorem c10_empty_check_precedes_bounds_witness :
    Queue.PeekElemAtIndex (⟨PriorityLow, [], 0, 0, 0⟩ : Queue ℕ) (-4) =
      some (0, 0, some GoErr.emptyQueue) ∧
    Queue.deleteWithoutMemoryManagement (⟨PriorityLow, [], 0, 0, 0⟩ : Queue ℕ) (-4) =
      some (none, some GoErr.emptyQueue, ⟨PriorityLow, [], 0, 0, 0⟩) :=
  c10_empty_check_precedes_bounds ⟨PriorityLow, [], 0, 0, 0⟩ (-4) rfl
